import Mathlib

/-!
Verification development for the hierarchy parser and chunk-merging engine of
`ingestion_scripts/chunking.py` (legal-rag-springboot).

The Python functions are shallowly embedded as executable Lean definitions:

* `ensure_punctuation`, `classify_line` (the `REGEX_LEVEL_MAP` matcher table),
  `find_title`, `find_appendix_index` and `parse_legal_document_to_dict`
  embed PART 1 of the file (parsing a line sequence into a labeled tree);
* `extract_all_node_texts`, `dfs_build`, `merge_absorb` / `merge_run` /
  `merge_chunks` and `create_chunks_from_tree` embed PART 2 (path-chunk
  extraction, the greedy merge loop, the coverage check, and output records).

The external tokenizer (`tiktoken` via `count_tokens`) is modelled as an
abstract parameter `tc : String → Nat`; Python string membership and equality
are exact string equality, which Lean `String` equality models directly.
Python `str.strip` / regex `\s` strip Unicode whitespace; they are modelled
with `Char.isWhitespace`, which agrees on all whitespace appearing in the
documents considered here.  Regex matchers are hand-translated to anchored
matching functions over character lists; Python `re.IGNORECASE` is modelled
by lowercasing the scrutinee (with an explicit case table for the Vietnamese
letters, since `Char.toLower` only handles ASCII).
-/

/-- Model of Python whitespace (for `str.strip` and the regex class `\s`). -/
def pyWS (c : Char) : Bool := c.isWhitespace

/-- Strip whitespace from both ends of a character list (Python `str.strip`). -/
def stripChars (l : List Char) : List Char :=
  ((l.dropWhile pyWS).reverse.dropWhile pyWS).reverse

/-- Python `str.strip` on strings. -/
def pyStrip (s : String) : String := ⟨stripChars s.data⟩

/-- The terminal-punctuation class of `ensure_punctuation`: `[.!?。:：]`. -/
def punctChars : List Char := ['.', '!', '?', '。', ':', '：']

/-- Truthiness of `re.search(r'[.!?。:：]$', text.strip())`: the stripped text
ends with a terminal punctuation mark. -/
def ends_with_punct (s : String) : Bool :=
  match (pyStrip s).data.getLast? with
  | some c => punctChars.contains c
  | none => false

/-- Model of `ensure_punctuation` from chunking.py: append `'.'` when the stripped text
does not already end in terminal punctuation. -/
def ensure_punctuation (s : String) : String :=
  if ends_with_punct s then s else s ++ "."

/-- Uppercase-to-lowercase table for the Vietnamese letters relevant to the
matcher table and document keywords (Python `str.lower` beyond ASCII). -/
def vietLowerPairs : List (Char × Char) :=
  [('Đ', 'đ'), ('Ê', 'ê'), ('Ô', 'ô'), ('Ơ', 'ơ'), ('Ư', 'ư'), ('Ă', 'ă'),
   ('Â', 'â'), ('Á', 'á'), ('À', 'à'), ('Ả', 'ả'), ('Ạ', 'ạ'), ('Ã', 'ã'),
   ('Ấ', 'ấ'), ('Ầ', 'ầ'), ('Ẩ', 'ẩ'), ('Ẫ', 'ẫ'), ('Ậ', 'ậ'), ('Ắ', 'ắ'),
   ('Ằ', 'ằ'), ('Ẳ', 'ẳ'), ('Ẵ', 'ẵ'), ('Ặ', 'ặ'), ('É', 'é'), ('È', 'è'),
   ('Ẻ', 'ẻ'), ('Ẹ', 'ẹ'), ('Ẽ', 'ẽ'), ('Ế', 'ế'), ('Ề', 'ề'), ('Ể', 'ể'),
   ('Ễ', 'ễ'), ('Ệ', 'ệ'), ('Í', 'í'), ('Ì', 'ì'), ('Ỉ', 'ỉ'), ('Ị', 'ị'),
   ('Ĩ', 'ĩ'), ('Ó', 'ó'), ('Ò', 'ò'), ('Ỏ', 'ỏ'), ('Ọ', 'ọ'), ('Õ', 'õ'),
   ('Ố', 'ố'), ('Ồ', 'ồ'), ('Ổ', 'ổ'), ('Ỗ', 'ỗ'), ('Ộ', 'ộ'), ('Ớ', 'ớ'),
   ('Ờ', 'ờ'), ('Ở', 'ở'), ('Ỡ', 'ỡ'), ('Ợ', 'ợ'), ('Ú', 'ú'), ('Ù', 'ù'),
   ('Ủ', 'ủ'), ('Ụ', 'ụ'), ('Ũ', 'ũ'), ('Ứ', 'ứ'), ('Ừ', 'ừ'), ('Ử', 'ử'),
   ('Ữ', 'ữ'), ('Ự', 'ự'), ('Ý', 'ý'), ('Ỳ', 'ỳ'), ('Ỷ', 'ỷ'), ('Ỵ', 'ỵ'),
   ('Ỹ', 'ỹ')]

/-- Python `str.lower` on a single character (ASCII plus the table above). -/
def pyCharLower (c : Char) : Char :=
  match vietLowerPairs.find? (fun p => p.1 == c) with
  | some p => p.2
  | none => c.toLower

/-- Python `str.lower` on strings. -/
def pyLower (s : String) : String := ⟨s.data.map pyCharLower⟩

/-- Exact prefix test on character lists. -/
def listStarts : List Char → List Char → Bool
  | [], _ => true
  | _ :: _, [] => false
  | a :: p, b :: l => a == b && listStarts p l

/-- Substring occurrence test on character lists (Python `in` for strings). -/
def listHasSub (p : List Char) : List Char → Bool
  | [] => p.isEmpty
  | c :: r => listStarts p (c :: r) || listHasSub p r

/-- Python `needle in hay` for strings. -/
def str_contains_sub (needle hay : String) : Bool := listHasSub needle.data hay.data

/-- The delimiter class `[\.\)]` used by the generic list-marker patterns. -/
def isDelim (c : Char) : Bool := c == '.' || c == ')'

/-- The next character exists and is a delimiter. -/
def delimAfter : List Char → Bool
  | c :: _ => isDelim c
  | [] => false

/-- Lowercase roman-numeral letters (the class `[IVXLCDM]` after lowercasing). -/
def isRomanLower (c : Char) : Bool := ['i', 'v', 'x', 'l', 'c', 'd', 'm'].contains c

/-- Vietnamese letters (both cases), for the Python Unicode word-character
class `\w` as it applies to the documents considered. -/
def vietLetters : List Char :=
  (vietLowerPairs.map (fun p => p.1)) ++ (vietLowerPairs.map (fun p => p.2))

/-- Python `\w` (word character): ASCII alphanumerics, underscore, and the
Vietnamese letters above. -/
def isWordChar (c : Char) : Bool := c.isAlphanum || c == '_' || vietLetters.contains c

/-- A `\b` word boundary holds here: end of input or a non-word character
(the position always follows a word character in the patterns below). -/
def atBoundary : List Char → Bool
  | [] => true
  | c :: _ => !isWordChar c

/-- Consume `\s+`: at least one whitespace character, maximally. -/
def wsPlus : List Char → Option (List Char)
  | c :: r => if pyWS c then some (r.dropWhile pyWS) else none
  | [] => none

/-- Consume a literal character sequence. -/
def lit (p : List Char) (l : List Char) : Option (List Char) :=
  if listStarts p l then some (l.drop p.length) else none

/-- Consume the group `((?:[IVXLCDM]+)|(?:[0-9]{1,2}))` on lowered text: a
maximal roman run, or else a digit run of length exactly 1 or 2 (a longer
digit run has no way to satisfy the following `\b`, so it fails). -/
def romanOrShortNum (l : List Char) : Option (List Char) :=
  let rom := l.takeWhile isRomanLower
  if !rom.isEmpty then some (l.drop rom.length)
  else
    let ds := l.takeWhile Char.isDigit
    if ds.length == 1 || ds.length == 2 then some (l.drop ds.length) else none

/-- Consume the optional group `(thứ\s+)?` (committing is equivalent to
backtracking here because `thứ` can never start the following group). -/
def optThu (l : List Char) : List Char :=
  match lit "thứ".data l with
  | some ra =>
    match wsPlus ra with
    | some rb => rb
    | none => l
  | none => l

/-- Shared tail `(thứ\s+)?((?:[IVXLCDM]+)|(?:[0-9]{1,2}))\b` of the part /
section / sub-section patterns. -/
def numTail (r : List Char) : Bool :=
  match romanOrShortNum (optThu r) with
  | none => false
  | some r4 => atBoundary r4

/-- Pattern `^(phần)\s+(thứ\s+)?((?:[IVXLCDM]+)|(?:[0-9]{1,2}))\b`, IGNORECASE. -/
def match_phan_num (s : String) : Bool :=
  match (lit "phần".data (pyLower s).data).bind wsPlus with
  | none => false
  | some r => numTail r

/-- The spelled-out ordinal words of the second part-level pattern. -/
def ordinalWords : List String :=
  ["nhất", "một", "hai", "ba", "bốn", "năm", "sáu", "bảy", "tám", "chín",
   "mười", "mười một", "mười hai", "mười ba", "mười bốn", "mười lăm",
   "mười sáu", "mười bảy", "mười tám", "mười chín", "hai mươi", "ba mươi",
   "bốn mươi", "năm mươi", "sáu mươi", "bảy mươi", "tám mươi", "chín mươi",
   "trăm"]

/-- Pattern `^(phần)\s+thứ\s+((?:nhất|một|...|trăm))\b`, IGNORECASE. -/
def match_phan_word (s : String) : Bool :=
  match (((lit "phần".data (pyLower s).data).bind wsPlus).bind
      (lit "thứ".data)).bind wsPlus with
  | none => false
  | some r => ordinalWords.any (fun w => listStarts w.data r && atBoundary (r.drop w.data.length))

/-- Pattern `^(chương)\s+[IVXLCDM0-9]+`, IGNORECASE. -/
def match_chuong (s : String) : Bool :=
  match (lit "chương".data (pyLower s).data).bind wsPlus with
  | none => false
  | some (c :: _) => isRomanLower c || c.isDigit
  | some [] => false

/-- Pattern `^(mục)\s+(thứ\s+)?((?:[IVXLCDM]+)|(?:[0-9]{1,2}))\b`, IGNORECASE. -/
def match_muc (s : String) : Bool :=
  match (lit "mục".data (pyLower s).data).bind wsPlus with
  | none => false
  | some r => numTail r

/-- Pattern `^(tiểu\s+mục)\s+(thứ\s+)?((?:[IVXLCDM]+)|(?:[0-9]{1,2}))\b`, IGNORECASE. -/
def match_tieu_muc (s : String) : Bool :=
  match (((lit "tiểu".data (pyLower s).data).bind wsPlus).bind
      (lit "mục".data)).bind wsPlus with
  | none => false
  | some r => numTail r

/-- Pattern `^(điều)\s+[0-9]+`, IGNORECASE. -/
def match_dieu (s : String) : Bool :=
  match (lit "điều".data (pyLower s).data).bind wsPlus with
  | none => false
  | some (c :: _) => c.isDigit
  | some [] => false

/-- Pattern `^(khoản)\s+[0-9]+`, IGNORECASE. -/
def match_khoan (s : String) : Bool :=
  match (lit "khoản".data (pyLower s).data).bind wsPlus with
  | none => false
  | some (c :: _) => c.isDigit
  | some [] => false

/-- Pattern `^(tiểu khoản)\s+[0-9]+` (literal single space inside), IGNORECASE. -/
def match_tieu_khoan (s : String) : Bool :=
  match (lit "tiểu khoản".data (pyLower s).data).bind wsPlus with
  | none => false
  | some (c :: _) => c.isDigit
  | some [] => false

/-- The character class `[A-ZĐÊÔÔÁÀẢẠÃẦẤẬ]` (case-sensitive). -/
def upperLetterClass (c : Char) : Bool :=
  c.isUpper || ['Đ', 'Ê', 'Ô', 'Á', 'À', 'Ả', 'Ạ', 'Ã', 'Ầ', 'Ấ', 'Ậ'].contains c

/-- The lookahead body `(I|II|III)[\.\)]`. -/
def romanU123Delim (l : List Char) : Bool :=
  (listStarts "III".data l && delimAfter (l.drop 3)) ||
  (listStarts "II".data l && delimAfter (l.drop 2)) ||
  (listStarts "I".data l && delimAfter (l.drop 1))

/-- Pattern `^(?!(I|II|III)[\.\)])([A-ZĐÊÔÔÁÀẢẠÃẦẤẬ])[\.\)]` (case-sensitive): an
uppercase-letter bullet, explicitly excluding roman numerals I/II/III. -/
def match_upper_letter (s : String) : Bool :=
  match s.data with
  | c :: d :: _ => !romanU123Delim s.data && upperLetterClass c && isDelim d
  | _ => false

/-- The alternatives of `(I{1,3}|IV|V|VI|VII|VIII|IX|X)`. -/
def romanUAlts : List String :=
  ["I", "II", "III", "IV", "V", "VI", "VII", "VIII", "IX", "X"]

/-- Pattern `^(I{1,3}|IV|V|VI|VII|VIII|IX|X)[\.\)]` (case-sensitive). -/
def match_roman_upper (s : String) : Bool :=
  romanUAlts.any (fun a => listStarts a.data s.data && delimAfter (s.data.drop a.data.length))

/-- Pattern `^[0-9]+[\.\)]`. -/
def match_number (s : String) : Bool :=
  let ds := s.data.takeWhile Char.isDigit
  !ds.isEmpty && delimAfter (s.data.drop ds.length)

/-- The character class `[a-zđêôêáàảạãầấậ]` (case-sensitive). -/
def lowerLetterClass (c : Char) : Bool :=
  c.isLower || ['đ', 'ê', 'ô', 'á', 'à', 'ả', 'ạ', 'ã', 'ầ', 'ấ', 'ậ'].contains c

/-- The lookahead body `(ii|iii)[\.\)]`. -/
def romanL23Delim (l : List Char) : Bool :=
  (listStarts "iii".data l && delimAfter (l.drop 3)) ||
  (listStarts "ii".data l && delimAfter (l.drop 2))

/-- Pattern `^(?!(ii|iii)[\.\)])([a-zđêôêáàảạãầấậ])[\.\)]` (case-sensitive): a
lowercase-letter bullet, explicitly excluding roman numerals ii/iii. -/
def match_lower_letter (s : String) : Bool :=
  match s.data with
  | c :: d :: _ => !romanL23Delim s.data && lowerLetterClass c && isDelim d
  | _ => false

/-- The alternatives of `(ii|iii|iv|v|vi|vii|viii|ix|x)`. -/
def romanLAlts : List String :=
  ["ii", "iii", "iv", "v", "vi", "vii", "viii", "ix", "x"]

/-- Pattern `^(ii|iii|iv|v|vi|vii|viii|ix|x)[\.\)]` (case-sensitive). -/
def match_roman_lower (s : String) : Bool :=
  romanLAlts.any (fun a => listStarts a.data s.data && delimAfter (s.data.drop a.data.length))

/-- The priority-ordered matcher table `REGEX_LEVEL_MAP` of chunking.py. -/
def REGEX_LEVEL_MAP : List ((String → Bool) × Int) :=
  [(match_phan_num, 1), (match_phan_word, 1), (match_chuong, 2), (match_muc, 3),
   (match_tieu_muc, 4), (match_dieu, 5), (match_khoan, 6), (match_tieu_khoan, 7),
   (match_upper_letter, 10), (match_roman_upper, 11), (match_number, 12),
   (match_lower_letter, 13), (match_roman_lower, 14)]

/-- Classify a line by the first matching pattern of the priority table
(the inner `for regex, level ... break` loop of the tree builder). -/
def classify_line (s : String) : Option Int :=
  (REGEX_LEVEL_MAP.find? (fun e => e.1 s)).map (fun e => e.2)

/-- The document-type keywords used for title detection. -/
def doc_keywords : List String :=
  ["bộ luật", "chỉ thị", "hiến pháp", "lệnh", "luật", "nghị định",
   "nghị quyết liên tịch", "nghị quyết", "pháp lệnh", "quyết định",
   "thông tư liên tịch", "thông tư"]

/-- A line contains (case-insensitively) one of the document-type keywords. -/
def line_has_doc_keyword (line : String) : Bool :=
  doc_keywords.any (fun kw => str_contains_sub kw (pyLower line))

/-- Title scan: at most the first 20 lines; on a hit the immediately
following line of the full list (when it exists) is appended. -/
def find_title : List String → Nat → Option String
  | [], _ => none
  | l :: rest, i =>
    if 20 ≤ i then none
    else if line_has_doc_keyword l then
      some (match rest.head? with
            | some nxt => l ++ " " ++ nxt
            | none => l)
    else find_title rest (i + 1)

/-- Truthiness of `appendix_regex.match(line.lower().strip())`: the lowered, stripped line
starts with the appendix marker. -/
def is_appendix_line (line : String) : Bool :=
  listStarts "phụ lục".data (pyStrip (pyLower line)).data

/-- Index of the first appendix-marker line, if any. -/
def find_appendix_index : List String → Option Nat
  | [] => none
  | l :: r => if is_appendix_line l then some 0 else (find_appendix_index r).map (· + 1)

/-- A node of the hierarchy tree: `{"level": ..., "content": ..., "children": [...]}`. -/
inductive PNode where
  | mk (level : Int) (content : String) (children : List PNode) : PNode

/-- The `level` field of a node. -/
def PNode.level : PNode → Int
  | .mk l _ _ => l

/-- The `content` field of a node. -/
def PNode.content : PNode → String
  | .mk _ c _ => c

/-- The `children` field of a node. -/
def PNode.children : PNode → List PNode
  | .mk _ _ cs => cs

/-- Close the top frame into the frame below it while the top's level is
`≥ newLevel` and a frame below exists.  In the Python builder a node is
appended to its parent's `children` when created and the stack merely drops
references; in this functional zipper the attachment is performed when a
frame closes, which yields the same final tree with children in the same
document order.  The bottom frame is the synthetic root, which the Python
code keeps outside its `stack` list and which is therefore never popped. -/
def pop_ge_aux (newLevel : Int) (top : PNode) : List PNode → List PNode
  | [] => [top]
  | g :: rest =>
    if newLevel ≤ top.level then
      pop_ge_aux newLevel (.mk g.level g.content (g.children ++ [top])) rest
    else top :: g :: rest

/-- Model of `while stack and stack[-1]["level"] >= current_level: stack.pop()`. -/
def pop_ge (newLevel : Int) : List PNode → List PNode
  | [] => []
  | f :: rest => pop_ge_aux newLevel f rest

/-- The tree-construction state: the stack of open frames (top first, the
synthetic root of level −1 at the bottom) and the `non_saved_lines` list. -/
structure BuildState where
  stack : List PNode
  non_saved_lines : List String

/-- The initial state: only the synthetic root is open. -/
def initial_state : BuildState := ⟨[.mk (-1) "" []], []⟩

/-- One iteration of the tree-construction loop: a classified line closes all
open frames of level ≥ its own and opens a new node; an unmatched line is
appended to the content of the top open node (space-separated), or diverted
to `non_saved_lines` when only the root is open. -/
def build_step (st : BuildState) (line : String) : BuildState :=
  match classify_line line with
  | some lv => { st with stack := .mk lv line [] :: pop_ge lv st.stack }
  | none =>
    match st.stack with
    | [r] => { stack := [r], non_saved_lines := st.non_saved_lines ++ [line] }
    | top :: rest =>
      { st with stack :=
          (PNode.mk top.level
            (if top.content = "" then line else top.content ++ " " ++ line)
            top.children) :: rest }
    | [] => st

/-- Close every remaining open frame into the frame below it, yielding the
completed root node. -/
def close_all_aux (top : PNode) : List PNode → PNode
  | [] => top
  | g :: rest => close_all_aux (.mk g.level g.content (g.children ++ [top])) rest

/-- Close a whole stack (empty stacks yield a fresh empty root). -/
def close_all : List PNode → PNode
  | [] => .mk (-1) "" []
  | f :: rest => close_all_aux f rest

/-- The result of parsing one document's line sequence: the relevant
metadata fields and the tree (`content` = the root's children). -/
structure ParsedDoc where
  title : String
  has_appendix : Bool
  non_saved_lines : List String
  content : List PNode

/-- Model of `parse_legal_document_to_dict`, starting from the stripped non-empty
line sequence (the file-reading preamble is the upstream input contract):
title detection on the untruncated lines, appendix truncation, then the
stack-based tree construction. -/
def parse_legal_document_to_dict (lines : List String) : ParsedDoc :=
  let title := find_title lines 0
  let app := find_appendix_index lines
  let truncated := match app with
    | some k => lines.take k
    | none => lines
  let final := truncated.foldl build_step initial_state
  let root := close_all final.stack
  { title := match title with
      | some t => t
      | none => "Không xác định"
    has_appendix := app.isSome
    non_saved_lines := final.non_saved_lines
    content := root.children }

/-- An intermediate chunk `{"chunk_content": [...], "token_length": n}`. -/
structure Chunk where
  chunk_content : List String
  token_length : Nat
deriving DecidableEq

/-- An output record `{"source_file", "url", "token_length", "chunk_content"}`. -/
structure OutputChunk where
  source_file : String
  url : String
  token_length : Nat
  chunk_content : String
deriving DecidableEq

mutual
/-- Model of `extract_all_node_texts`: every node's content, in pre-order. -/
def extract_all_node_texts : PNode → List String
  | .mk _ c cs => c :: extract_all_node_texts_list cs

/-- Extraction over a list of sibling nodes. -/
def extract_all_node_texts_list : List PNode → List String
  | [] => []
  | n :: ns => extract_all_node_texts n ++ extract_all_node_texts_list ns
end

mutual
/-- Model of `dfs_build`: pre-order traversal emitting, for each leaf, the root-to-leaf
sequence of punctuation-normalized contents with the token count of their
bare concatenation (Python `''.join`). -/
def dfs_build (tc : String → Nat) (path : List String) : PNode → List Chunk
  | .mk _ c cs =>
    let p := path ++ [ensure_punctuation c]
    match cs with
    | [] => [⟨p, tc (String.join p)⟩]
    | c0 :: rest => dfs_build_list tc p (c0 :: rest)

/-- Extraction of path-chunks over a list of sibling nodes. -/
def dfs_build_list (tc : String → Nat) (path : List String) : List PNode → List Chunk
  | [] => []
  | n :: ns => dfs_build tc path n ++ dfs_build_list tc path ns
end

/-- The "find first different line" scan of the merge loop: index of the
first line of the candidate that does not occur in the accumulator. -/
def find_first_novel (cur : List String) : List String → Option Nat
  | [] => none
  | l :: ls => if cur.contains l then (find_first_novel cur ls).map (· + 1) else some 0

/-- The trial merged line sequence of one absorption attempt: the
accumulator's lines followed by the candidate's lines from its first novel
line onward (all of them when no novel line exists), all re-normalized. -/
def merge_lines (cur nxt : List String) : List String :=
  (match find_first_novel cur nxt with
    | some f => cur ++ nxt.drop f
    | none => cur ++ nxt).map ensure_punctuation

/-- The inner merge loop: repeatedly try to absorb the next chunk into the
accumulator; commit while the re-normalized joined text stays within the
budget, stop at the first candidate that does not fit. -/
def merge_absorb (tc : String → Nat) (max_token : Nat) :
    Chunk → List Chunk → Chunk × List Chunk
  | cur, [] => (cur, [])
  | cur, nxt :: rest =>
    let merged := merge_lines cur.chunk_content nxt.chunk_content
    let mtok := tc (String.join merged)
    if mtok ≤ max_token then merge_absorb tc max_token ⟨merged, mtok⟩ rest
    else (cur, nxt :: rest)

/-- The outer merge loop, fuelled by the number of remaining chunks (the
Python `while i < len(all_chunks)` loop advances `i` by at least one per
iteration, so `cs.length` steps always suffice; exhausted fuel returns the
remaining chunks unchanged and is unreachable from `merge_chunks`). -/
def merge_run (tc : String → Nat) (max_token : Nat) : Nat → List Chunk → List Chunk
  | _, [] => []
  | 0, cs => cs
  | fuel + 1, c :: rest =>
    let st := merge_absorb tc max_token c rest
    st.1 :: merge_run tc max_token fuel st.2

/-- The complete merge pass over the ordered path-chunks. -/
def merge_chunks (tc : String → Nat) (max_token : Nat) (cs : List Chunk) : List Chunk :=
  merge_run tc max_token cs.length cs

/-- The synthetic root used by `create_chunks_from_tree`: the document title
with the parsed tree as children (the Python dict has no level key; the
level value is never read by the chunking phase). -/
def root_node_of (tree : ParsedDoc) : PNode := .mk (-1) tree.title tree.content

/-- The final (pre-output) chunks of a document. -/
def all_final_chunks (tc : String → Nat) (max_token : Nat) (tree : ParsedDoc) : List Chunk :=
  merge_chunks tc max_token (dfs_build tc [] (root_node_of tree))

/-- Model of `create_chunks_from_tree`: extract path-chunks, merge them under the
budget, verify that every node text survives (raising `ValueError` with the
missing strings otherwise, modelled by `Except.error`), and emit the output
records with space-joined content. -/
def create_chunks_from_tree (tc : String → Nat) (max_token : Nat)
    (tree : ParsedDoc) (source_file_path : String) :
    Except (List String) (List OutputChunk) :=
  let all_node_texts := (extract_all_node_texts (root_node_of tree)).map ensure_punctuation
  let final_chunks := all_final_chunks tc max_token tree
  let used := final_chunks.foldr (fun c acc => c.chunk_content ++ acc) []
  let missing := all_node_texts.filter (fun t => !used.contains t)
  if missing.isEmpty then
    .ok (final_chunks.map (fun c =>
      ⟨source_file_path, "", c.token_length, String.intercalate " " c.chunk_content⟩))
  else
    .error missing


/-! ### Basic lemmas about the string helpers -/

/-- After appending a period, the stripped character list ends with it. -/
theorem stripChars_concat_dot (l : List Char) : (stripChars (l ++ ['.'])).getLast? = some '.' := by
  have hdot : pyWS '.' = false := by decide
  unfold stripChars
  rw [List.dropWhile_append]
  cases h : (l.dropWhile pyWS).isEmpty with
  | true =>
    simp only [h, if_true]
    simp [List.dropWhile_cons_of_neg, hdot]
  | false =>
    simp only [h, Bool.false_eq_true, if_false]
    rw [List.reverse_append]
    simp [List.dropWhile_cons_of_neg, hdot]

/-- Appending a period makes the text end with terminal punctuation. -/
theorem ends_with_punct_append_dot (s : String) : ends_with_punct (s ++ ".") = true := by
  have h := stripChars_concat_dot s.data
  have hdata : (s ++ ".").data = s.data ++ ['.'] := rfl
  unfold ends_with_punct pyStrip
  rw [hdata]
  simp [h, punctChars]

/-- Idempotence of `ensure_punctuation`. -/
theorem ensure_punctuation_idem (s : String) :
    ensure_punctuation (ensure_punctuation s) = ensure_punctuation s := by
  unfold ensure_punctuation
  by_cases h : ends_with_punct s
  · simp [h]
  · simp [h, ends_with_punct_append_dot]

/-- Mapping a function that fixes every element of a list is the identity. -/
theorem map_fixed {α : Type} {f : α → α} :
    ∀ l : List α, (∀ x ∈ l, f x = x) → l.map f = l := by
  intro l
  induction l with
  | nil => intro _; rfl
  | cons a t ih =>
    intro h
    simp only [List.map_cons]
    rw [h a (by simp), ih (fun x hx => h x (by simp [hx]))]

/-! ### Lemmas about the classifier table -/

/-- Every level the priority table can assign is at least 1. -/
theorem classify_line_pos {s : String} {L : Int} (h : classify_line s = some L) : 1 ≤ L := by
  unfold classify_line at h
  rw [Option.map_eq_some'] at h
  obtain ⟨e, he, hL⟩ := h
  have hmem := List.mem_of_find?_eq_some he
  subst hL
  simp only [REGEX_LEVEL_MAP, List.mem_cons, List.not_mem_nil, or_false] at hmem
  rcases hmem with h | h | h | h | h | h | h | h | h | h | h | h | h <;> subst h <;> norm_num

/-! ### Lemmas about the merge loop -/

/-- Boolean list containment implies membership (strings have lawful `==`). -/
theorem contains_mem {l : List String} {a : String} (h : l.contains a = true) : a ∈ l := by
  simpa using h

/-- All lines of a chunk are fixed points of `ensure_punctuation` (true of
every path-chunk, whose lines are `ensure_punctuation` outputs). -/
def EnsFixed (c : Chunk) : Prop :=
  ∀ l ∈ c.chunk_content, ensure_punctuation l = l

/-- The stored `token_length` is the token count of the bare concatenation
(Python `''.join`) of the chunk's lines. -/
def TokOk (tc : String → Nat) (c : Chunk) : Prop :=
  c.token_length = tc (String.join c.chunk_content)

/-- When no novel line exists, every candidate line already occurs in the
accumulator. -/
theorem find_first_novel_none {cur : List String} :
    ∀ {nxt : List String}, find_first_novel cur nxt = none → ∀ l ∈ nxt, l ∈ cur := by
  intro nxt
  induction nxt with
  | nil => intro _ l hl; simp at hl
  | cons x xs ih =>
    intro h l hl
    unfold find_first_novel at h
    split at h
    · rename_i hc
      rw [Option.map_eq_none'] at h
      rcases List.mem_cons.1 hl with rfl | hm
      · exact contains_mem hc
      · exact ih h l hm
    · simp at h

/-- When the first novel line sits at index `f`, every candidate line is
either already in the accumulator or among the lines from `f` onward. -/
theorem find_first_novel_some {cur : List String} :
    ∀ {nxt : List String} {f : Nat}, find_first_novel cur nxt = some f →
      ∀ l ∈ nxt, l ∈ cur ∨ l ∈ nxt.drop f := by
  intro nxt
  induction nxt with
  | nil => intro f h; simp [find_first_novel] at h
  | cons x xs ih =>
    intro f h l hl
    unfold find_first_novel at h
    split at h
    · rename_i hc
      rw [Option.map_eq_some'] at h
      obtain ⟨g, hg, rfl⟩ := h
      rcases List.mem_cons.1 hl with rfl | hm
      · exact Or.inl (contains_mem hc)
      · rcases ih hg l hm with h1 | h1
        · exact Or.inl h1
        · exact Or.inr (by simpa using h1)
    · rcases Option.some.inj h with rfl
      exact Or.inr (by simpa using hl)

/-- The three facts about a trial merge used below: when both sides' lines
are `ensure_punctuation`-fixed, the trial is the accumulator's lines plus a
fixed tail, and it contains every candidate line. -/
theorem merge_lines_spec (cur nxt : List String)
    (h1 : ∀ l ∈ cur, ensure_punctuation l = l)
    (h2 : ∀ l ∈ nxt, ensure_punctuation l = l) :
    (∀ l ∈ merge_lines cur nxt, ensure_punctuation l = l) ∧
    (∃ extra, merge_lines cur nxt = cur ++ extra) ∧
    (∀ l ∈ nxt, l ∈ merge_lines cur nxt) := by
  unfold merge_lines
  cases hf : find_first_novel cur nxt with
  | none =>
    have : (cur ++ nxt).map ensure_punctuation = cur ++ nxt := by
      apply map_fixed
      intro x hx
      rcases List.mem_append.1 hx with h | h
      · exact h1 x h
      · exact h2 x h
    rw [this]
    refine ⟨?_, ⟨nxt, rfl⟩, ?_⟩
    · intro l hl
      rcases List.mem_append.1 hl with h | h
      · exact h1 l h
      · exact h2 l h
    · intro l hl
      exact List.mem_append.2 (Or.inr hl)
  | some f =>
    have : (cur ++ nxt.drop f).map ensure_punctuation = cur ++ nxt.drop f := by
      apply map_fixed
      intro x hx
      rcases List.mem_append.1 hx with h | h
      · exact h1 x h
      · exact h2 x (List.mem_of_mem_drop h)
    rw [this]
    refine ⟨?_, ⟨nxt.drop f, rfl⟩, ?_⟩
    · intro l hl
      rcases List.mem_append.1 hl with h | h
      · exact h1 l h
      · exact h2 l (List.mem_of_mem_drop h)
    · intro l hl
      rcases find_first_novel_some hf l hl with h | h
      · exact List.mem_append.2 (Or.inl h)
      · exact List.mem_append.2 (Or.inr h)

/-- The chunks left unabsorbed by the inner loop are a tail of its input. -/
theorem merge_absorb_drop (tc : String → Nat) (mt : Nat) :
    ∀ (rest : List Chunk) (cur : Chunk), ∃ k,
      (merge_absorb tc mt cur rest).2 = rest.drop k := by
  intro rest
  induction rest with
  | nil => intro cur; exact ⟨0, rfl⟩
  | cons nxt rest ih =>
    intro cur
    by_cases h : tc (String.join (merge_lines cur.chunk_content nxt.chunk_content)) ≤ mt
    · obtain ⟨k, hk⟩ := ih ⟨merge_lines cur.chunk_content nxt.chunk_content,
        tc (String.join (merge_lines cur.chunk_content nxt.chunk_content))⟩
      refine ⟨k + 1, ?_⟩
      simp only [merge_absorb]
      rw [if_pos h]
      simpa using hk
    · refine ⟨0, ?_⟩
      simp only [merge_absorb]
      rw [if_neg h]
      rfl

/-- The accumulator leaves the inner loop either untouched or within budget. -/
theorem merge_absorb_budget (tc : String → Nat) (mt : Nat) :
    ∀ (rest : List Chunk) (cur : Chunk),
      (merge_absorb tc mt cur rest).1 = cur ∨
      (merge_absorb tc mt cur rest).1.token_length ≤ mt := by
  intro rest
  induction rest with
  | nil => intro cur; exact Or.inl rfl
  | cons nxt rest ih =>
    intro cur
    by_cases h : tc (String.join (merge_lines cur.chunk_content nxt.chunk_content)) ≤ mt
    · rcases ih ⟨merge_lines cur.chunk_content nxt.chunk_content,
        tc (String.join (merge_lines cur.chunk_content nxt.chunk_content))⟩ with h1 | h1
      · right
        simp only [merge_absorb]
        rw [if_pos h, h1]
        exact h
      · right
        simp only [merge_absorb]
        rw [if_pos h]
        exact h1
    · left
      simp only [merge_absorb]
      rw [if_neg h]

/-- The inner loop keeps the stored token count equal to the token count of
the bare concatenation of the accumulator's lines. -/
theorem merge_absorb_tokok (tc : String → Nat) (mt : Nat) :
    ∀ (rest : List Chunk) (cur : Chunk), TokOk tc cur →
      TokOk tc (merge_absorb tc mt cur rest).1 := by
  intro rest
  induction rest with
  | nil => intro cur h; exact h
  | cons nxt rest ih =>
    intro cur hcur
    by_cases h : tc (String.join (merge_lines cur.chunk_content nxt.chunk_content)) ≤ mt
    · simp only [merge_absorb]
      rw [if_pos h]
      exact ih _ rfl
    · simp only [merge_absorb]
      rw [if_neg h]
      exact hcur

/-- Combined specification of the inner merge loop on normalized chunks:
some prefix of the pending chunks is absorbed; the accumulator's lines are
extended, stay normalized, and contain every line of every absorbed chunk. -/
theorem merge_absorb_spec (tc : String → Nat) (mt : Nat) :
    ∀ (rest : List Chunk) (cur : Chunk), EnsFixed cur → (∀ c ∈ rest, EnsFixed c) →
      ∃ k, (merge_absorb tc mt cur rest).2 = rest.drop k ∧
        (∃ extra, (merge_absorb tc mt cur rest).1.chunk_content = cur.chunk_content ++ extra) ∧
        EnsFixed (merge_absorb tc mt cur rest).1 ∧
        (∀ c ∈ rest.take k, ∀ l ∈ c.chunk_content,
          l ∈ (merge_absorb tc mt cur rest).1.chunk_content) := by
  intro rest
  induction rest with
  | nil =>
    intro cur hcur _
    exact ⟨0, rfl, ⟨[], by simp [merge_absorb]⟩, hcur, by simp⟩
  | cons nxt rest ih =>
    intro cur hcur hrest
    have hnxt : EnsFixed nxt := hrest nxt (by simp)
    obtain ⟨hfix, ⟨extra0, hml⟩, hsub⟩ :=
      merge_lines_spec cur.chunk_content nxt.chunk_content hcur hnxt
    by_cases h : tc (String.join (merge_lines cur.chunk_content nxt.chunk_content)) ≤ mt
    · have heq : merge_absorb tc mt cur (nxt :: rest) =
          merge_absorb tc mt
            ⟨merge_lines cur.chunk_content nxt.chunk_content,
             tc (String.join (merge_lines cur.chunk_content nxt.chunk_content))⟩ rest := by
        simp only [merge_absorb]
        rw [if_pos h]
      obtain ⟨k, h2, ⟨extra, hex⟩, hfx, hcov⟩ :=
        ih ⟨merge_lines cur.chunk_content nxt.chunk_content,
            tc (String.join (merge_lines cur.chunk_content nxt.chunk_content))⟩
          hfix (fun c hc => hrest c (by simp [hc]))
      refine ⟨k + 1, ?_, ⟨extra0 ++ extra, ?_⟩, ?_, ?_⟩
      · rw [heq, h2]
        simp
      · rw [heq, hex]
        simp only at hex ⊢
        rw [hml]
        simp
      · rw [heq]
        exact hfx
      · intro c hc l hl
        rw [heq]
        simp only [List.take_succ_cons, List.mem_cons] at hc
        rcases hc with rfl | hc
        · rw [hex]
          simp only
          exact List.mem_append.2 (Or.inl (hsub l hl))
        · exact hcov c hc l hl
    · have heq : merge_absorb tc mt cur (nxt :: rest) = (cur, nxt :: rest) := by
        simp only [merge_absorb]
        rw [if_neg h]
      refine ⟨0, ?_, ⟨[], by simp [heq]⟩, ?_, ?_⟩
      · rw [heq]
        rfl
      · rw [heq]
        exact hcur
      · simp

/-- Line coverage of the fuelled outer merge loop: every line of every input
chunk survives into some output chunk. -/
theorem merge_run_coverage (tc : String → Nat) (mt : Nat) :
    ∀ (fuel : Nat) (cs : List Chunk), (∀ c ∈ cs, EnsFixed c) →
      ∀ c ∈ cs, ∀ l ∈ c.chunk_content,
        ∃ out ∈ merge_run tc mt fuel cs, l ∈ out.chunk_content := by
  intro fuel
  induction fuel with
  | zero =>
    intro cs _ c hc l hl
    cases cs with
    | nil => simp at hc
    | cons c0 r => exact ⟨c, by simpa [merge_run] using hc, hl⟩
  | succ fuel ih =>
    intro cs hfix c hc l hl
    cases cs with
    | nil => simp at hc
    | cons c0 rest =>
      obtain ⟨k, h2, ⟨extra, hex⟩, hfx, hcov⟩ :=
        merge_absorb_spec tc mt rest c0 (hfix c0 (by simp))
          (fun c hc => hfix c (by simp [hc]))
      have hrun : merge_run tc mt (fuel + 1) (c0 :: rest) =
          (merge_absorb tc mt c0 rest).1 ::
            merge_run tc mt fuel (merge_absorb tc mt c0 rest).2 := rfl
      rcases List.mem_cons.1 hc with rfl | hcr
      · refine ⟨(merge_absorb tc mt c rest).1, by simp [hrun], ?_⟩
        rw [hex]
        exact List.mem_append.2 (Or.inl hl)
      · have hsplit : c ∈ rest.take k ++ rest.drop k := by
          rw [List.take_append_drop]
          exact hcr
        rcases List.mem_append.1 hsplit with htk | hdr
        · exact ⟨(merge_absorb tc mt c0 rest).1, by simp [hrun], hcov c htk l hl⟩
        · have hfix2 : ∀ c' ∈ (merge_absorb tc mt c0 rest).2, EnsFixed c' := by
            intro c' hc'
            rw [h2] at hc'
            exact hfix c' (by simp [List.mem_of_mem_drop hc'])
          have hmem2 : c ∈ (merge_absorb tc mt c0 rest).2 := by
            rw [h2]
            exact hdr
          obtain ⟨out, hout, hlo⟩ := ih (merge_absorb tc mt c0 rest).2 hfix2 c hmem2 l hl
          exact ⟨out, by simp [hrun, hout], hlo⟩

/-- Budget discipline of the fuelled outer merge loop: every output chunk is
within budget or is one of the input chunks, emitted untouched. -/
theorem merge_run_budget (tc : String → Nat) (mt : Nat) :
    ∀ (fuel : Nat) (cs : List Chunk), ∀ out ∈ merge_run tc mt fuel cs,
      out ∈ cs ∨ out.token_length ≤ mt := by
  intro fuel
  induction fuel with
  | zero =>
    intro cs out hout
    cases cs with
    | nil => simp [merge_run] at hout
    | cons c0 r => exact Or.inl (by simpa [merge_run] using hout)
  | succ fuel ih =>
    intro cs out hout
    cases cs with
    | nil => simp [merge_run] at hout
    | cons c0 rest =>
      have hrun : merge_run tc mt (fuel + 1) (c0 :: rest) =
          (merge_absorb tc mt c0 rest).1 ::
            merge_run tc mt fuel (merge_absorb tc mt c0 rest).2 := rfl
      rw [hrun] at hout
      rcases List.mem_cons.1 hout with rfl | htl
      · rcases merge_absorb_budget tc mt rest c0 with h | h
        · exact Or.inl (by simp [h])
        · exact Or.inr h
      · rcases ih (merge_absorb tc mt c0 rest).2 out htl with h | h
        · obtain ⟨k, hk⟩ := merge_absorb_drop tc mt rest c0
          rw [hk] at h
          exact Or.inl (by simp [List.mem_of_mem_drop h])
        · exact Or.inr h

/-- Token-count discipline of the fuelled outer merge loop: stored counts
always equal the token count of the bare concatenation of the lines. -/
theorem merge_run_tokok (tc : String → Nat) (mt : Nat) :
    ∀ (fuel : Nat) (cs : List Chunk), (∀ c ∈ cs, TokOk tc c) →
      ∀ out ∈ merge_run tc mt fuel cs, TokOk tc out := by
  intro fuel
  induction fuel with
  | zero =>
    intro cs htok out hout
    cases cs with
    | nil => simp [merge_run] at hout
    | cons c0 r => exact htok out (by simpa [merge_run] using hout)
  | succ fuel ih =>
    intro cs htok out hout
    cases cs with
    | nil => simp [merge_run] at hout
    | cons c0 rest =>
      have hrun : merge_run tc mt (fuel + 1) (c0 :: rest) =
          (merge_absorb tc mt c0 rest).1 ::
            merge_run tc mt fuel (merge_absorb tc mt c0 rest).2 := rfl
      rw [hrun] at hout
      rcases List.mem_cons.1 hout with rfl | htl
      · exact merge_absorb_tokok tc mt rest c0 (htok c0 (by simp))
      · refine ih (merge_absorb tc mt c0 rest).2 ?_ out htl
        intro c' hc'
        obtain ⟨k, hk⟩ := merge_absorb_drop tc mt rest c0
        rw [hk] at hc'
        exact htok c' (by simp [List.mem_of_mem_drop hc'])

/-- Origin of the outer loop's outputs: each output chunk starts with the
lines of one of the input chunks (extended by absorbed material). -/
theorem merge_run_origin (tc : String → Nat) (mt : Nat) :
    ∀ (fuel : Nat) (cs : List Chunk), (∀ c ∈ cs, EnsFixed c) →
      ∀ out ∈ merge_run tc mt fuel cs,
        ∃ c ∈ cs, ∃ extra, out.chunk_content = c.chunk_content ++ extra := by
  intro fuel
  induction fuel with
  | zero =>
    intro cs _ out hout
    cases cs with
    | nil => simp [merge_run] at hout
    | cons c0 r =>
      exact ⟨out, by simpa [merge_run] using hout, [], by simp⟩
  | succ fuel ih =>
    intro cs hfix out hout
    cases cs with
    | nil => simp [merge_run] at hout
    | cons c0 rest =>
      have hrun : merge_run tc mt (fuel + 1) (c0 :: rest) =
          (merge_absorb tc mt c0 rest).1 ::
            merge_run tc mt fuel (merge_absorb tc mt c0 rest).2 := rfl
      rw [hrun] at hout
      obtain ⟨k, h2, ⟨extra, hex⟩, hfx, _⟩ :=
        merge_absorb_spec tc mt rest c0 (hfix c0 (by simp))
          (fun c hc => hfix c (by simp [hc]))
      rcases List.mem_cons.1 hout with rfl | htl
      · exact ⟨c0, by simp, extra, hex⟩
      · have hfix2 : ∀ c' ∈ (merge_absorb tc mt c0 rest).2, EnsFixed c' := by
          intro c' hc'
          rw [h2] at hc'
          exact hfix c' (by simp [List.mem_of_mem_drop hc'])
        obtain ⟨c, hc, extra', hex'⟩ := ih (merge_absorb tc mt c0 rest).2 hfix2 out htl
        rw [h2] at hc
        exact ⟨c, by simp [List.mem_of_mem_drop hc], extra', hex'⟩

/-! ### Lemmas about path-chunk extraction -/

mutual
/-- Every node yields at least one path-chunk. -/
theorem dfs_build_ne (tc : String → Nat) (path : List String) (n : PNode) :
    dfs_build tc path n ≠ [] := by
  cases n with
  | mk lv c cs =>
    cases cs with
    | nil => simp [dfs_build]
    | cons c0 cr =>
      simp only [dfs_build]
      exact dfs_build_list_ne tc (path ++ [ensure_punctuation c]) c0 cr

/-- A non-empty sibling list yields at least one path-chunk. -/
theorem dfs_build_list_ne (tc : String → Nat) (path : List String)
    (n0 : PNode) (ns : List PNode) : dfs_build_list tc path (n0 :: ns) ≠ [] := by
  simp only [dfs_build_list]
  intro h
  rcases List.append_eq_nil.1 h with ⟨h1, _⟩
  exact dfs_build_ne tc path n0 h1
end

mutual
/-- Every path-chunk below a node extends the running path plus the node's
own normalized content. -/
theorem dfs_build_starts (tc : String → Nat) (path : List String) (n : PNode) :
    ∀ c ∈ dfs_build tc path n, ∃ extra,
      c.chunk_content = (path ++ [ensure_punctuation n.content]) ++ extra := by
  cases n with
  | mk lv ct cs =>
    cases cs with
    | nil =>
      intro c hc
      simp only [dfs_build, List.mem_singleton] at hc
      subst hc
      exact ⟨[], by simp [PNode.content]⟩
    | cons c0 cr =>
      intro c hc
      simp only [dfs_build] at hc
      obtain ⟨extra, hex⟩ :=
        dfs_build_list_starts tc (path ++ [ensure_punctuation ct]) (c0 :: cr) c hc
      exact ⟨extra, by simpa [PNode.content] using hex⟩

/-- Every path-chunk of a sibling list extends the running path. -/
theorem dfs_build_list_starts (tc : String → Nat) (path : List String) (ns : List PNode) :
    ∀ c ∈ dfs_build_list tc path ns, ∃ extra, c.chunk_content = path ++ extra := by
  cases ns with
  | nil => intro c hc; simp [dfs_build_list] at hc
  | cons n0 nr =>
    intro c hc
    simp only [dfs_build_list, List.mem_append] at hc
    rcases hc with hc | hc
    · obtain ⟨extra, hex⟩ := dfs_build_starts tc path n0 c hc
      exact ⟨[ensure_punctuation n0.content] ++ extra, by simpa using hex⟩
    · exact dfs_build_list_starts tc path nr c hc
end

mutual
/-- Path-chunk lines are `ensure_punctuation`-fixed (given a fixed path). -/
theorem dfs_build_ensfixed (tc : String → Nat) (path : List String)
    (hp : ∀ l ∈ path, ensure_punctuation l = l) (n : PNode) :
    ∀ c ∈ dfs_build tc path n, EnsFixed c := by
  cases n with
  | mk lv ct cs =>
    have hp' : ∀ l ∈ path ++ [ensure_punctuation ct], ensure_punctuation l = l := by
      intro l hl
      rcases List.mem_append.1 hl with h | h
      · exact hp l h
      · rcases List.mem_singleton.1 h with rfl
        exact ensure_punctuation_idem ct
    cases cs with
    | nil =>
      intro c hc
      simp only [dfs_build, List.mem_singleton] at hc
      subst hc
      exact hp'
    | cons c0 cr =>
      intro c hc
      simp only [dfs_build] at hc
      exact dfs_build_list_ensfixed tc (path ++ [ensure_punctuation ct]) hp' (c0 :: cr) c hc

/-- Path-chunk lines of a sibling list are `ensure_punctuation`-fixed. -/
theorem dfs_build_list_ensfixed (tc : String → Nat) (path : List String)
    (hp : ∀ l ∈ path, ensure_punctuation l = l) (ns : List PNode) :
    ∀ c ∈ dfs_build_list tc path ns, EnsFixed c := by
  cases ns with
  | nil => intro c hc; simp [dfs_build_list] at hc
  | cons n0 nr =>
    intro c hc
    simp only [dfs_build_list, List.mem_append] at hc
    rcases hc with hc | hc
    · exact dfs_build_ensfixed tc path hp n0 c hc
    · exact dfs_build_list_ensfixed tc path hp nr c hc
end

mutual
/-- Every path-chunk stores the token count of the bare concatenation of
its lines. -/
theorem dfs_build_tokok (tc : String → Nat) (path : List String) (n : PNode) :
    ∀ c ∈ dfs_build tc path n, TokOk tc c := by
  cases n with
  | mk lv ct cs =>
    cases cs with
    | nil =>
      intro c hc
      simp only [dfs_build, List.mem_singleton] at hc
      subst hc
      rfl
    | cons c0 cr =>
      intro c hc
      simp only [dfs_build] at hc
      exact dfs_build_list_tokok tc (path ++ [ensure_punctuation ct]) (c0 :: cr) c hc

/-- Sibling-list version of `dfs_build_tokok`. -/
theorem dfs_build_list_tokok (tc : String → Nat) (path : List String) (ns : List PNode) :
    ∀ c ∈ dfs_build_list tc path ns, TokOk tc c := by
  cases ns with
  | nil => intro c hc; simp [dfs_build_list] at hc
  | cons n0 nr =>
    intro c hc
    simp only [dfs_build_list, List.mem_append] at hc
    rcases hc with hc | hc
    · exact dfs_build_tokok tc path n0 c hc
    · exact dfs_build_list_tokok tc path nr c hc
end

mutual
/-- Every node text below `n` appears, normalized, in some path-chunk. -/
theorem dfs_build_covers (tc : String → Nat) (path : List String) (n : PNode) :
    ∀ t ∈ extract_all_node_texts n, ∃ c ∈ dfs_build tc path n,
      ensure_punctuation t ∈ c.chunk_content := by
  cases n with
  | mk lv ct cs =>
    intro t ht
    simp only [extract_all_node_texts, List.mem_cons] at ht
    rcases ht with rfl | ht
    · cases cs with
      | nil =>
        refine ⟨⟨path ++ [ensure_punctuation t], tc (String.join (path ++ [ensure_punctuation t]))⟩, ?_, ?_⟩
        · simp [dfs_build]
        · simp
      | cons c0 cr =>
        obtain ⟨c, hc⟩ := List.exists_mem_of_ne_nil _
          (dfs_build_list_ne tc (path ++ [ensure_punctuation t]) c0 cr)
        obtain ⟨extra, hex⟩ :=
          dfs_build_list_starts tc (path ++ [ensure_punctuation t]) (c0 :: cr) c hc
        refine ⟨c, ?_, ?_⟩
        · simp [dfs_build, hc]
        · rw [hex]
          simp
    · cases cs with
      | nil => simp [extract_all_node_texts_list] at ht
      | cons c0 cr =>
        obtain ⟨c, hc, hin⟩ :=
          dfs_build_list_covers tc (path ++ [ensure_punctuation ct]) (c0 :: cr) t ht
        exact ⟨c, by simp [dfs_build, hc], hin⟩

/-- Sibling-list version of `dfs_build_covers`. -/
theorem dfs_build_list_covers (tc : String → Nat) (path : List String) (ns : List PNode) :
    ∀ t ∈ extract_all_node_texts_list ns, ∃ c ∈ dfs_build_list tc path ns,
      ensure_punctuation t ∈ c.chunk_content := by
  cases ns with
  | nil => intro t ht; simp [extract_all_node_texts_list] at ht
  | cons n0 nr =>
    intro t ht
    simp only [extract_all_node_texts_list, List.mem_append] at ht
    rcases ht with ht | ht
    · obtain ⟨c, hc, hin⟩ := dfs_build_covers tc path n0 t ht
      exact ⟨c, by simp [dfs_build_list, List.mem_append, hc], hin⟩
    · obtain ⟨c, hc, hin⟩ := dfs_build_list_covers tc path nr t ht
      exact ⟨c, by simp [dfs_build_list, List.mem_append, hc], hin⟩
end

/-! ### The coverage bookkeeping of create_chunks_from_tree -/

/-- Membership in the accumulated `used` line list of the verifier. -/
theorem mem_used_lines {final : List Chunk} {l : String} :
    l ∈ final.foldr (fun c acc => c.chunk_content ++ acc) [] ↔
      ∃ c ∈ final, l ∈ c.chunk_content := by
  induction final with
  | nil => simp
  | cons c0 r ih => simp [List.foldr_cons, ih]

/-! ### The depth-ordering invariant of the tree builder -/

/-- A tree node is depth-ordered: every child is strictly deeper than its
parent, recursively. -/
inductive Ordered : PNode → Prop where
  | mk (lv : Int) (ct : String) (cs : List PNode) :
      (∀ c ∈ cs, lv < c.level) → (∀ c ∈ cs, Ordered c) → Ordered (.mk lv ct cs)

/-- An open frame is well-formed: each completed child is strictly deeper
and itself depth-ordered. -/
def FrameOk (f : PNode) : Prop :=
  ∀ c ∈ f.children, f.level < c.level ∧ Ordered c

/-- A well-formed frame, once closed, is a depth-ordered node. -/
theorem FrameOk.ordered {f : PNode} (h : FrameOk f) : Ordered f := by
  cases f with
  | mk lv ct cs =>
    exact Ordered.mk lv ct cs (fun c hc => (h c hc).1) (fun c hc => (h c hc).2)

/-- The invariant of the construction stack: nonempty with the synthetic
root (level −1) at the bottom, levels strictly decreasing downward, and
every open frame well-formed. -/
def StackInv (st : List PNode) : Prop :=
  (∃ b, st.getLast? = some b ∧ b.level = -1) ∧
  List.Chain' (fun a b => b.level < a.level) st ∧
  ∀ f ∈ st, FrameOk f

/-- The initial stack (just the synthetic root) satisfies the invariant. -/
theorem initial_state_inv : StackInv initial_state.stack := by
  refine ⟨⟨.mk (-1) "" [], rfl, rfl⟩, ?_, ?_⟩
  · simp [initial_state]
  · intro f hf
    simp only [initial_state, List.mem_singleton] at hf
    subst hf
    intro c hc
    simp [PNode.children] at hc

/-- Closing the top frame into the frame below preserves the invariant. -/
theorem close_step_inv {top g : PNode} {r : List PNode}
    (h : StackInv (top :: g :: r)) :
    StackInv (PNode.mk g.level g.content (g.children ++ [top]) :: r) := by
  obtain ⟨⟨b, hb, hbl⟩, hch, hfr⟩ := h
  have hrel : g.level < top.level := (List.chain'_cons.1 hch).1
  have hchg : List.Chain' (fun a b => b.level < a.level) (g :: r) :=
    (List.chain'_cons.1 hch).2
  refine ⟨?_, ?_, ?_⟩
  · cases r with
    | nil =>
      refine ⟨.mk g.level g.content (g.children ++ [top]), rfl, ?_⟩
      have hbg : g = b := by simpa using hb
      show g.level = -1
      rw [hbg]
      exact hbl
    | cons r0 rr =>
      refine ⟨b, ?_, hbl⟩
      rw [List.getLast?_cons_cons] at hb ⊢
      rw [List.getLast?_cons_cons] at hb
      exact hb
  · rw [List.chain'_cons'] at hchg ⊢
    refine ⟨?_, hchg.2⟩
    intro x hx
    have := hchg.1 x hx
    simpa [PNode.level] using this
  · intro f hf
    rcases List.mem_cons.1 hf with rfl | hf
    · intro c hc
      simp only [PNode.children, PNode.level] at hc ⊢
      rcases List.mem_append.1 hc with hc | hc
      · exact hfr g (by simp) c hc
      · rcases List.mem_singleton.1 hc with rfl
        exact ⟨hrel, FrameOk.ordered (hfr c (by simp))⟩
    · exact hfr f (by simp [hf])

/-- Popping preserves the stack invariant. -/
theorem pop_ge_aux_inv (L : Int) :
    ∀ (rest : List PNode) (top : PNode), StackInv (top :: rest) →
      StackInv (pop_ge_aux L top rest) := by
  intro rest
  induction rest with
  | nil => intro top h; exact h
  | cons g r ih =>
    intro top h
    by_cases hl : L ≤ top.level
    · simp only [pop_ge_aux, if_pos hl]
      exact ih _ (close_step_inv h)
    · simp only [pop_ge_aux, if_neg hl]
      exact h

/-- Popping never empties the stack. -/
theorem pop_ge_aux_ne (L : Int) :
    ∀ (rest : List PNode) (top : PNode), pop_ge_aux L top rest ≠ [] := by
  intro rest
  induction rest with
  | nil => intro top; simp [pop_ge_aux]
  | cons g r ih =>
    intro top
    by_cases hl : L ≤ top.level
    · simp only [pop_ge_aux, if_pos hl]
      exact ih _
    · simp [pop_ge_aux, if_neg hl]

/-- After popping for a new level above the root's, the surviving top frame
is strictly shallower than the new level. -/
theorem pop_ge_aux_head (L : Int) (hL : -1 < L) :
    ∀ (rest : List PNode) (top : PNode), StackInv (top :: rest) →
      ∀ f, (pop_ge_aux L top rest).head? = some f → f.level < L := by
  intro rest
  induction rest with
  | nil =>
    intro top h f hf
    obtain ⟨⟨b, hb, hbl⟩, _, _⟩ := h
    simp only [pop_ge_aux, List.head?_cons, Option.some.injEq] at hf
    have hbt : b = top := by
      simp at hb
      exact hb.symm
    subst hf
    rw [← hbt, hbl]
    exact hL
  | cons g r ih =>
    intro top h f hf
    by_cases hl : L ≤ top.level
    · simp only [pop_ge_aux, if_pos hl] at hf
      exact ih _ (close_step_inv h) f hf
    · simp only [pop_ge_aux, if_neg hl, List.head?_cons, Option.some.injEq] at hf
      subst hf
      omega

/-- The full pop operation preserves the invariant on nonempty stacks. -/
theorem pop_ge_inv (L : Int) (st : List PNode) (h : StackInv st) :
    StackInv (pop_ge L st) := by
  cases st with
  | nil =>
    obtain ⟨⟨b, hb, _⟩, _, _⟩ := h
    simp at hb
  | cons f rest => exact pop_ge_aux_inv L rest f h

/-- The top frame surviving `pop_ge` is strictly shallower than the new
level (for levels above the root's). -/
theorem pop_ge_head (L : Int) (st : List PNode) (hinv : StackInv st) (hL : -1 < L) :
    ∀ f, (pop_ge L st).head? = some f → f.level < L := by
  cases st with
  | nil =>
    obtain ⟨⟨b, hb, _⟩, _, _⟩ := hinv
    simp at hb
  | cons f0 rest => exact pop_ge_aux_head L hL rest f0 hinv

/-- The full pop operation never empties a nonempty stack. -/
theorem pop_ge_ne (L : Int) (f0 : PNode) (rest : List PNode) :
    pop_ge L (f0 :: rest) ≠ [] := pop_ge_aux_ne L rest f0

/-- A classified line replaces the stack by a fresh frame on top of the
popped stack (the definitional equation of the classified branch). -/
theorem build_step_classified (st : BuildState) (line : String) (L : Int)
    (h : classify_line line = some L) :
    (build_step st line).stack = PNode.mk L line [] :: pop_ge L st.stack := by
  simp [build_step, h]

/-- One construction step preserves the stack invariant. -/
theorem build_step_inv (st : BuildState) (line : String) (h : StackInv st.stack) :
    StackInv ((build_step st line).stack) := by
  cases hcl : classify_line line with
  | some L =>
    rw [build_step_classified st line L hcl]
    have hL : -1 < L := by
      have := classify_line_pos hcl
      omega
    have hinv' := pop_ge_inv L st.stack h
    obtain ⟨⟨b, hb, hbl⟩, hch, hfr⟩ := hinv'
    cases hpop : pop_ge L st.stack with
    | nil =>
      rw [hpop] at hb
      simp at hb
    | cons p0 pr =>
      rw [hpop] at hb hch hfr
      refine ⟨⟨b, ?_, hbl⟩, ?_, ?_⟩
      · rw [List.getLast?_cons_cons]
        exact hb
      · rw [List.chain'_cons']
        refine ⟨?_, hch⟩
        intro x hx
        simp only [List.head?_cons, Option.mem_def, Option.some.injEq] at hx
        subst hx
        have := pop_ge_head L st.stack h hL p0 (by rw [hpop]; rfl)
        simpa [PNode.level] using this
      · intro f hf
        rcases List.mem_cons.1 hf with rfl | hf
        · intro c hc
          simp [PNode.children] at hc
        · exact hfr f hf
  | none =>
    cases hst : st.stack with
    | nil =>
      obtain ⟨⟨b, hb, _⟩, _, _⟩ := h
      rw [hst] at hb
      simp at hb
    | cons top rest =>
      cases rest with
      | nil =>
        have : (build_step st line).stack = [top] := by
          simp [build_step, hcl, hst]
        rw [this, ← hst]
        exact h
      | cons g rr =>
        have hstep : (build_step st line).stack =
            PNode.mk top.level
              (if top.content = "" then line else top.content ++ " " ++ line)
              top.children :: g :: rr := by
          simp [build_step, hcl, hst]
        rw [hstep]
        rw [hst] at h
        obtain ⟨⟨b, hb, hbl⟩, hch, hfr⟩ := h
        refine ⟨⟨b, ?_, hbl⟩, ?_, ?_⟩
        · rw [List.getLast?_cons_cons] at hb ⊢
          exact hb
        · rw [List.chain'_cons'] at hch ⊢
          refine ⟨?_, hch.2⟩
          intro x hx
          have := hch.1 x hx
          simpa [PNode.level] using this
        · intro f hf
          rcases List.mem_cons.1 hf with rfl | hf
          · intro c hc
            simp only [PNode.children] at hc
            have := hfr top (by simp) c hc
            simpa [PNode.level] using this
          · exact hfr f (by simp [hf])

/-- Folding the construction loop over any line list preserves the stack
invariant. -/
theorem build_fold_inv (lines : List String) :
    ∀ st : BuildState, StackInv st.stack →
      StackInv ((lines.foldl build_step st).stack) := by
  induction lines with
  | nil => intro st h; exact h
  | cons l ls ih =>
    intro st h
    simp only [List.foldl_cons]
    exact ih _ (build_step_inv st l h)

/-- Closing out the whole stack yields a well-formed frame at root level. -/
theorem close_all_aux_ok :
    ∀ (rest : List PNode) (top : PNode), StackInv (top :: rest) →
      FrameOk (close_all_aux top rest) ∧ (close_all_aux top rest).level = -1 := by
  intro rest
  induction rest with
  | nil =>
    intro top h
    obtain ⟨⟨b, hb, hbl⟩, _, hfr⟩ := h
    have hbt : top = b := by simpa using hb
    refine ⟨hfr top (by simp), ?_⟩
    rw [hbt]
    exact hbl
  | cons g r ih =>
    intro top h
    simp only [close_all_aux]
    exact ih _ (close_step_inv h)

/-- The children of the parsed root are strictly deeper than the synthetic
root's level −1 and depth-ordered. -/
theorem parse_content_ordered (lines : List String) :
    ∀ c ∈ (parse_legal_document_to_dict lines).content, -1 < c.level ∧ Ordered c := by
  have key : ∀ ls : List String,
      ∀ c ∈ (close_all ((ls.foldl build_step initial_state).stack)).children,
        -1 < c.level ∧ Ordered c := by
    intro ls c hc
    have hinv := build_fold_inv ls initial_state initial_state_inv
    cases hst : (ls.foldl build_step initial_state).stack with
    | nil =>
      obtain ⟨⟨b, hb, _⟩, _, _⟩ := hinv
      rw [hst] at hb
      simp at hb
    | cons f rest =>
      rw [hst] at hc hinv
      obtain ⟨hfr, hlv⟩ := close_all_aux_ok rest f hinv
      have := hfr c (by simpa [close_all] using hc)
      rw [hlv] at this
      exact this
  intro c hc
  exact key _ c hc

/-! ### Appendix truncation -/

/-- Truncating at the first appendix marker removes every appendix line:
the truncated prefix contains no appendix marker. -/
theorem find_appendix_take :
    ∀ (lines : List String) (k : Nat), find_appendix_index lines = some k →
      find_appendix_index (lines.take k) = none := by
  intro lines
  induction lines with
  | nil => intro k h; simp [find_appendix_index] at h
  | cons l r ih =>
    intro k h
    unfold find_appendix_index at h
    split at h
    · rcases Option.some.inj h with rfl
      simp [find_appendix_index]
    · rename_i hap
      rw [Option.map_eq_some'] at h
      obtain ⟨k', hk', rfl⟩ := h
      simp only [List.take_succ_cons]
      unfold find_appendix_index
      rw [if_neg hap, ih k' hk']
      rfl

/-- Membership implies boolean containment for string lists. -/
theorem mem_contains {l : List String} {a : String} (h : a ∈ l) : l.contains a = true := by
  simpa using h

/-! ### The claims -/

/-- C1.  For every input document tree, every node's normalized content
string (every ancestor heading as well as every leaf, including the root
title) appears as a line of at least one emitted final chunk, and
`create_chunks_from_tree` returns without raising the coverage-violation
error: the missing-nodes branch is unreachable for chunk sets produced by
the merger itself. -/
theorem claim_c1_coverage (tc : String → Nat) (mt : Nat) (tree : ParsedDoc) (src : String) :
    (∃ out, create_chunks_from_tree tc mt tree src = .ok out) ∧
    (∀ t ∈ (extract_all_node_texts (root_node_of tree)).map ensure_punctuation,
      ∃ fc ∈ all_final_chunks tc mt tree, t ∈ fc.chunk_content) := by
  have hfixcs : ∀ c ∈ dfs_build tc [] (root_node_of tree), EnsFixed c :=
    dfs_build_ensfixed tc [] (by intro l hl; simp at hl) (root_node_of tree)
  have hcov : ∀ t ∈ (extract_all_node_texts (root_node_of tree)).map ensure_punctuation,
      ∃ fc ∈ all_final_chunks tc mt tree, t ∈ fc.chunk_content := by
    intro t ht
    rw [List.mem_map] at ht
    obtain ⟨t0, ht0, rfl⟩ := ht
    obtain ⟨c, hc, hin⟩ := dfs_build_covers tc [] (root_node_of tree) t0 ht0
    obtain ⟨out, hout, hlo⟩ := merge_run_coverage tc mt
      (dfs_build tc [] (root_node_of tree)).length
      (dfs_build tc [] (root_node_of tree)) hfixcs c hc _ hin
    exact ⟨out, hout, hlo⟩
  refine ⟨?_, hcov⟩
  have hempty : ((extract_all_node_texts (root_node_of tree)).map ensure_punctuation).filter
      (fun t => !((all_final_chunks tc mt tree).foldr
        (fun c acc => c.chunk_content ++ acc) []).contains t) = [] := by
    rw [List.filter_eq_nil_iff]
    intro t ht
    obtain ⟨fc, hfc, hin⟩ := hcov t ht
    have hmem : t ∈ (all_final_chunks tc mt tree).foldr
        (fun c acc => c.chunk_content ++ acc) [] :=
      mem_used_lines.2 ⟨fc, hfc, hin⟩
    simpa using hmem
  refine ⟨(all_final_chunks tc mt tree).map (fun c =>
      ⟨src, "", c.token_length, String.intercalate " " c.chunk_content⟩), ?_⟩
  simp only [create_chunks_from_tree]
  rw [hempty]
  simp

/-- C2.  For every token budget and every ordered chunk sequence, every
chunk emitted by the merge loop has stored `token_length ≤ max_token`,
except a chunk that is exactly one input path-chunk, emitted as-is, whose
own stored token count already exceeds the budget. -/
theorem claim_c2_budget (tc : String → Nat) (mt : Nat) (cs : List Chunk) (out : Chunk)
    (h : out ∈ merge_chunks tc mt cs) :
    out.token_length ≤ mt ∨ (out ∈ cs ∧ mt < out.token_length) := by
  rcases merge_run_budget tc mt cs.length cs out h with h1 | h1
  · by_cases h2 : out.token_length ≤ mt
    · exact Or.inl h2
    · exact Or.inr ⟨h1, by omega⟩
  · exact Or.inl h1

/-- C2 witness: a singleton oversized chunk is emitted as-is. -/
theorem claim_c2_budget_witness :
    (⟨["A."], 2⟩ : Chunk) ∈ merge_chunks String.length 1 [⟨["A."], 2⟩] ∧
    ((⟨["A."], 2⟩ : Chunk).token_length ≤ 1 ∨
      ((⟨["A."], 2⟩ : Chunk) ∈ ([⟨["A."], 2⟩] : List Chunk) ∧
        1 < (⟨["A."], 2⟩ : Chunk).token_length)) :=
  ⟨by decide, claim_c2_budget String.length 1 [⟨["A."], 2⟩] ⟨["A."], 2⟩ (by decide)⟩

/-- C3 counterexample.  The claim says an all-repeat candidate "contributes
no new lines to the merged line sequence, while still being treated as
absorbed so the traversal advances past it".  Both halves fail on the code:
with budget 3 the duplicate-appending trial exceeds the budget, so the
all-repeat candidate is NOT absorbed and is emitted as its own chunk (two
output chunks instead of one); and with budget 10, where it is absorbed,
the merged line sequence receives the candidate's lines wholesale, gaining
a duplicate occurrence of "A.". -/
theorem claim_c3_counterexample :
    find_first_novel ["A."] ["A."] = none ∧
    merge_chunks String.length 3 [⟨["A."], 2⟩, ⟨["A."], 2⟩] = [⟨["A."], 2⟩, ⟨["A."], 2⟩] ∧
    merge_chunks String.length 10 [⟨["A."], 2⟩, ⟨["A."], 2⟩] = [⟨["A.", "A."], 4⟩] := by decide

/-- C3 as amended.  When a candidate has no novel line, the trial sequence
appends the whole candidate after the accumulator, so it adds no new
distinct line value (as a set it equals the accumulator's lines, though
duplicate occurrences are appended); and the candidate is absorbed — the
traversal advancing past it — only when the recomputed token count of the
trial stays within the budget. -/
theorem claim_c3_amended (tc : String → Nat) (mt : Nat) (cur nxt : Chunk) (rest : List Chunk)
    (hfix : EnsFixed cur)
    (hnov : find_first_novel cur.chunk_content nxt.chunk_content = none)
    (hfit : tc (String.join (merge_lines cur.chunk_content nxt.chunk_content)) ≤ mt) :
    (∀ l, l ∈ merge_lines cur.chunk_content nxt.chunk_content ↔ l ∈ cur.chunk_content) ∧
    merge_absorb tc mt cur (nxt :: rest) =
      merge_absorb tc mt
        ⟨merge_lines cur.chunk_content nxt.chunk_content,
         tc (String.join (merge_lines cur.chunk_content nxt.chunk_content))⟩ rest := by
  constructor
  · intro l
    unfold merge_lines
    rw [hnov]
    constructor
    · intro hl
      rw [List.mem_map] at hl
      obtain ⟨x, hx, rfl⟩ := hl
      have hxc : x ∈ cur.chunk_content := by
        rcases List.mem_append.1 hx with h | h
        · exact h
        · exact find_first_novel_none hnov x h
      rw [hfix x hxc]
      exact hxc
    · intro hl
      rw [List.mem_map]
      exact ⟨l, List.mem_append.2 (Or.inl hl), hfix l hl⟩
  · simp only [merge_absorb]
    rw [if_pos hfit]

/-- C3 witness: the amended statement at a concrete all-repeat candidate. -/
theorem claim_c3_amended_witness :
    EnsFixed ⟨["A."], 2⟩ ∧
    find_first_novel ["A."] ["A."] = none ∧
    String.length (String.join (merge_lines ["A."] ["A."])) ≤ 10 ∧
    ((∀ l, l ∈ merge_lines ["A."] ["A."] ↔ l ∈ (["A."] : List String)) ∧
      merge_absorb String.length 10 ⟨["A."], 2⟩ [⟨["A."], 2⟩] =
        merge_absorb String.length 10
          ⟨merge_lines ["A."] ["A."],
           String.length (String.join (merge_lines ["A."] ["A."]))⟩ []) :=
  ⟨by intro l hl; simp at hl; subst hl; decide,
   by decide, by decide,
   claim_c3_amended String.length 10 ⟨["A."], 2⟩ ⟨["A."], 2⟩ []
     (by intro l hl; simp at hl; subst hl; decide) (by decide) (by decide)⟩

/-- C4 counterexample.  The claim says the stored `tokenCount` equals the
token counter applied to the chunk's content string (the space-joined line
sequence).  The code counts the lines joined WITHOUT a separator: for the
document `["Điều 1"]` and the character-count tokenizer the emitted chunk
stores 22 (length of "Không xác định.Điều 1.") while its content
"Không xác định. Điều 1." has length 23. -/
theorem claim_c4_counterexample :
    ∃ c, (create_chunks_from_tree String.length 800
        (parse_legal_document_to_dict ["Điều 1"]) "f").toOption = some [c] ∧
      c.token_length ≠ String.length c.chunk_content :=
  ⟨⟨"f", "", 22, "Không xác định. Điều 1."⟩, by decide, by decide⟩

/-- C4 as amended.  Every emitted record's stored `token_length` is the
token count of the bare concatenation (no separator) of its final chunk's
line sequence, while the emitted content string is the space-joined line
sequence. -/
theorem claim_c4_amended (tc : String → Nat) (mt : Nat) (tree : ParsedDoc) (src : String)
    (out : List OutputChunk) (h : create_chunks_from_tree tc mt tree src = .ok out) :
    ∀ oc ∈ out, ∃ fc ∈ all_final_chunks tc mt tree,
      oc.token_length = fc.token_length ∧
      fc.token_length = tc (String.join fc.chunk_content) ∧
      oc.chunk_content = String.intercalate " " fc.chunk_content := by
  have htok : ∀ fc ∈ all_final_chunks tc mt tree, TokOk tc fc := by
    intro fc hfc
    exact merge_run_tokok tc mt (dfs_build tc [] (root_node_of tree)).length
      (dfs_build tc [] (root_node_of tree)) (dfs_build_tokok tc [] (root_node_of tree)) fc hfc
  have hout : out = (all_final_chunks tc mt tree).map (fun c =>
      ⟨src, "", c.token_length, String.intercalate " " c.chunk_content⟩) := by
    simp only [create_chunks_from_tree] at h
    split at h
    · exact (Except.ok.inj h).symm
    · simp at h
  intro oc hoc
  rw [hout] at hoc
  rw [List.mem_map] at hoc
  obtain ⟨fc, hfc, rfl⟩ := hoc
  exact ⟨fc, hfc, rfl, htok fc hfc, rfl⟩

/-- C4 witness: the amended statement at a concrete document. -/
theorem claim_c4_amended_witness :
    create_chunks_from_tree String.length 800 (parse_legal_document_to_dict ["Điều 1"]) "f" =
      .ok [⟨"f", "", 22, "Không xác định. Điều 1."⟩] ∧
    (∀ oc ∈ ([⟨"f", "", 22, "Không xác định. Điều 1."⟩] : List OutputChunk),
      ∃ fc ∈ all_final_chunks String.length 800 (parse_legal_document_to_dict ["Điều 1"]),
        oc.token_length = fc.token_length ∧
        fc.token_length = String.length (String.join fc.chunk_content) ∧
        oc.chunk_content = String.intercalate " " fc.chunk_content) :=
  ⟨rfl, claim_c4_amended String.length 800 (parse_legal_document_to_dict ["Điều 1"]) "f"
    [⟨"f", "", 22, "Không xác định. Điều 1."⟩] rfl⟩

/-- C5 counterexample.  The claim says an empty input line sequence yields
zero final chunks.  The code instead emits exactly one chunk: the root of
the chunking phase is the synthetic title node, which is childless for an
empty document and is therefore emitted as a leaf path-chunk holding the
normalized "unknown title" sentinel. -/
theorem claim_c5_counterexample :
    (create_chunks_from_tree String.length 800
      (parse_legal_document_to_dict []) "f").toOption.map List.length = some 1 := by decide

/-- C5 as amended.  On an empty input line sequence the pipeline raises no
error and emits exactly one final chunk, whose content is the normalized
title sentinel "Không xác định." and whose token count is the counter's
value on that sentinel. -/
theorem claim_c5_amended (tc : String → Nat) (mt : Nat) (src : String) :
    create_chunks_from_tree tc mt (parse_legal_document_to_dict []) src =
      .ok [⟨src, "", tc "Không xác định.", "Không xác định."⟩] := rfl

/-- C6 counterexample.  For the input `["Luật X", "Điều 1", "A", "Điều 1",
"B"]` the claim predicts path-chunks `["Luật X.", "Điều 1.", "A."]` and
`["Luật X.", "Điều 1.", "B."]`.  On the code, title detection concatenates
the line after the keyword line (title "Luật X Điều 1"), and the bare
lines "A"/"B" match no pattern, so they are appended as body text to the
open article nodes: the actual path-chunks differ from the claimed ones. -/
theorem claim_c6_counterexample :
    (dfs_build String.length [] (root_node_of
        (parse_legal_document_to_dict ["Luật X", "Điều 1", "A", "Điều 1", "B"]))).map
        Chunk.chunk_content =
      [["Luật X Điều 1.", "Điều 1 A."], ["Luật X Điều 1.", "Điều 1 B."]] ∧
    (dfs_build String.length [] (root_node_of
        (parse_legal_document_to_dict ["Luật X", "Điều 1", "A", "Điều 1", "B"]))).map
        Chunk.chunk_content ≠
      [["Luật X.", "Điều 1.", "A."], ["Luật X.", "Điều 1.", "B."]] := by decide

/-- C6 as amended.  For the input `["Luật X", "Điều 1", "A", "Điều 1",
"B"]` the extractor produces exactly the two path-chunks
`["Luật X Điều 1.", "Điều 1 A."]` and `["Luật X Điều 1.", "Điều 1 B."]`
(the title pulls in the following line; "A" and "B" are unmatched body
lines absorbed into the article nodes' contents), and when the token budget
allows absorbing both, the merged chunk content is
"Luật X Điều 1. Điều 1 A. Điều 1 B.". -/
theorem claim_c6_amended :
    (dfs_build String.length [] (root_node_of
        (parse_legal_document_to_dict ["Luật X", "Điều 1", "A", "Điều 1", "B"]))).map
        Chunk.chunk_content =
      [["Luật X Điều 1.", "Điều 1 A."], ["Luật X Điều 1.", "Điều 1 B."]] ∧
    (create_chunks_from_tree String.length 800
        (parse_legal_document_to_dict ["Luật X", "Điều 1", "A", "Điều 1", "B"]) "f").toOption.map
        (List.map OutputChunk.chunk_content) =
      some ["Luật X Điều 1. Điều 1 A. Điều 1 B."] := by decide

/-- C7.  In the tree produced by the builder, every node is strictly deeper
than its parent (the synthetic root having level −1); and when a classified
line of level L arrives, all open stack entries with level ≥ L are popped
before the new node is pushed, so the surviving stack top is strictly
shallower than L. -/
theorem claim_c7_depth_ordering (lines : List String) (st : BuildState) (line : String)
    (L : Int) (hcl : classify_line line = some L) (hinv : StackInv st.stack) :
    (∀ c ∈ (parse_legal_document_to_dict lines).content, -1 < c.level ∧ Ordered c) ∧
    (build_step st line).stack = PNode.mk L line [] :: pop_ge L st.stack ∧
    (∀ f, (pop_ge L st.stack).head? = some f → f.level < L) := by
  refine ⟨parse_content_ordered lines, build_step_classified st line L hcl, ?_⟩
  exact pop_ge_head L st.stack hinv (by have := classify_line_pos hcl; omega)

/-- C7 witness: the depth-ordering statement at a concrete document and a
concrete classified line arriving on the initial stack. -/
theorem claim_c7_depth_ordering_witness :
    classify_line "Điều 1" = some 5 ∧ StackInv initial_state.stack ∧
    ((∀ c ∈ (parse_legal_document_to_dict ["Chương I", "Điều 1", "x"]).content,
        -1 < c.level ∧ Ordered c) ∧
      (build_step initial_state "Điều 1").stack =
        PNode.mk 5 "Điều 1" [] :: pop_ge 5 initial_state.stack ∧
      (∀ f, (pop_ge 5 initial_state.stack).head? = some f → f.level < 5)) :=
  ⟨by decide, initial_state_inv,
   claim_c7_depth_ordering ["Chương I", "Điều 1", "x"] initial_state "Điều 1" 5
     (by decide) initial_state_inv⟩

/-- C8.  The line "I." is classified as a roman-numeral list marker (level
11) and never as an uppercase-letter bullet (level 10); the uppercase-letter
matcher rejects "I", "II", "III" followed by either delimiter, and the
lowercase-letter matcher rejects "ii", "iii" followed by either delimiter. -/
theorem claim_c8_ambiguity :
    classify_line "I." = some 11 ∧ classify_line "I)" = some 11 ∧
    classify_line "I." ≠ some 10 ∧
    match_upper_letter "I." = false ∧ match_upper_letter "I)" = false ∧
    match_upper_letter "II." = false ∧ match_upper_letter "II)" = false ∧
    match_upper_letter "III." = false ∧ match_upper_letter "III)" = false ∧
    match_lower_letter "ii." = false ∧ match_lower_letter "ii)" = false ∧
    match_lower_letter "iii." = false ∧ match_lower_letter "iii)" = false := by decide

/-- C9 counterexample.  The claim says no emitted chunk contains any text
from a line at position ≥ k (k the first appendix line), including text
pulled into the document title.  But title detection runs BEFORE appendix
truncation and concatenates the line following the keyword line: for
`["Luật A", "Phụ lục I"]` (k = 1) the single emitted chunk is
"Luật A Phụ lục I.", which contains the appendix line "Phụ lục I". -/
theorem claim_c9_counterexample :
    find_appendix_index ["Luật A", "Phụ lục I"] = some 1 ∧
    (create_chunks_from_tree String.length 800
        (parse_legal_document_to_dict ["Luật A", "Phụ lục I"]) "f").toOption.map
        (List.map OutputChunk.chunk_content) = some ["Luật A Phụ lục I."] ∧
    str_contains_sub "Phụ lục I" "Luật A Phụ lục I." = true := by decide

/-- C9 as amended.  When the first appendix marker sits at position k, the
tree construction (and the unassigned-lines list) sees exactly
`lines[0:k]`: the parsed content and non-saved lines coincide with those of
the truncated document.  The document title, however, is chosen from the
untruncated lines and may incorporate the appendix marker line when it
immediately follows the title keyword line. -/
theorem claim_c9_amended (lines : List String) (k : Nat)
    (h : find_appendix_index lines = some k) :
    (parse_legal_document_to_dict lines).content =
      (parse_legal_document_to_dict (lines.take k)).content ∧
    (parse_legal_document_to_dict lines).non_saved_lines =
      (parse_legal_document_to_dict (lines.take k)).non_saved_lines := by
  have h2 := find_appendix_take lines k h
  constructor <;> simp [parse_legal_document_to_dict, h, h2]

/-- C9 witness: the amended truncation statement at a concrete document. -/
theorem claim_c9_amended_witness :
    find_appendix_index ["Luật A", "Phụ lục I"] = some 1 ∧
    ((parse_legal_document_to_dict ["Luật A", "Phụ lục I"]).content =
        (parse_legal_document_to_dict (["Luật A", "Phụ lục I"].take 1)).content ∧
      (parse_legal_document_to_dict ["Luật A", "Phụ lục I"]).non_saved_lines =
        (parse_legal_document_to_dict (["Luật A", "Phụ lục I"].take 1)).non_saved_lines) :=
  ⟨by decide, claim_c9_amended ["Luật A", "Phụ lục I"] 1 (by decide)⟩

/-- C10.  Every final chunk's line sequence begins with the normalized
document title: every path-chunk starts with the root title pushed first by
the depth-first traversal, and merging only appends lines after the
accumulator's existing lines. -/
theorem claim_c10_title_head (tc : String → Nat) (mt : Nat) (tree : ParsedDoc) (fc : Chunk)
    (h : fc ∈ all_final_chunks tc mt tree) :
    fc.chunk_content.head? = some (ensure_punctuation tree.title) := by
  have hfixcs : ∀ c ∈ dfs_build tc [] (root_node_of tree), EnsFixed c :=
    dfs_build_ensfixed tc [] (by intro l hl; simp at hl) (root_node_of tree)
  obtain ⟨c, hc, extra, hex⟩ := merge_run_origin tc mt
    (dfs_build tc [] (root_node_of tree)).length
    (dfs_build tc [] (root_node_of tree)) hfixcs fc h
  obtain ⟨e2, he2⟩ := dfs_build_starts tc [] (root_node_of tree) c hc
  rw [hex, he2]
  simp [root_node_of, PNode.content]

/-- C10 witness: the title-first statement at a concrete document. -/
theorem claim_c10_title_head_witness :
    (⟨["Không xác định.", "Điều 1."], 22⟩ : Chunk) ∈
      all_final_chunks String.length 800 (parse_legal_document_to_dict ["Điều 1"]) ∧
    (⟨["Không xác định.", "Điều 1."], 22⟩ : Chunk).chunk_content.head? =
      some (ensure_punctuation (parse_legal_document_to_dict ["Điều 1"]).title) :=
  ⟨by decide,
   claim_c10_title_head String.length 800 (parse_legal_document_to_dict ["Điều 1"])
     ⟨["Không xác định.", "Điều 1."], 22⟩ (by decide)⟩
